import Mathlib

/-!
# Verification of the `stashy` key-value stash crate

Shallow embedding of the crate's core: the `Stash::validate_key` key
validator (`src/lib.rs`), the in-memory `LocalStash` backend
(`src/local.rs`, a `HashMap<String, String>` modelled as an association
list with unique keys), and the pure parts of the Redis backend
(`src/redis.rs`): the connection-string builder of `RedisStash::connect`
and the `delete` adapter over the remote DEL command.

Stateful operations are embedded by explicit state passing: each
operation takes the backend's store and returns the Rust result paired
with the store after the call.
-/

set_option autoImplicit false

deriving instance DecidableEq for Except

/-- The crate's error type (`StashError` in `src/lib.rs`).
The Rust `BackendError` variant boxes an arbitrary error object; the
embedding carries its rendered message. -/
inductive StashError where
  | InvalidKey : String → StashError
  | BackendError : String → StashError
deriving DecidableEq, Repr

/-- One character of a key is allowed by the validator's character check:
`c.is_ascii_alphanumeric() || c == ':' || c == '_'` (`src/lib.rs:96`).
`Char.isAlphanum` is exactly Rust's `is_ascii_alphanumeric` (ASCII
letters and digits only). -/
def keyCharOk (c : Char) : Bool :=
  c.isAlphanum || c == ':' || c == '_'

/-- Rust's `Stash::validate_key` (`src/lib.rs:84-100`): the four checks in source
order. `List.splitOn ':'` has exactly Rust's `str::split(':')` semantics
(`"".split` yields one empty piece, `"a:".split` yields `["a", ""]`). -/
def Stash.validate_key (key : String) : Except StashError Unit :=
  if key.data = [] then
    Except.error (StashError.InvalidKey "Key must not be empty")
  else if key.data.head? = some ':' ∨ key.data.getLast? = some ':' then
    Except.error (StashError.InvalidKey "Key must not start or end with ':'")
  else if (key.data.splitOn ':').any (fun s => s.isEmpty) then
    Except.error (StashError.InvalidKey "Key must not contain empty segments")
  else if !(key.data.all keyCharOk) then
    Except.error (StashError.InvalidKey "Key contains invalid characters")
  else Except.ok ()

/-- A segment of the spec's key grammar: `segment := [A-Za-z0-9_]+`
(one or more ASCII alphanumerics or underscores). Written from the
spec's words, for the refinement statement of claim C1. -/
def isSegment (s : List Char) : Prop :=
  s ≠ [] ∧ ∀ c ∈ s, (c.isAlphanum = true ∨ c = '_')

/-- The spec's key grammar, written from its words:
`key := segment (":" segment)*` — the key is the `:`-intercalation of a
nonempty list of segments. -/
def keyGrammar (key : String) : Prop :=
  ∃ segs : List (List Char), segs ≠ [] ∧ (∀ s ∈ segs, isSegment s) ∧
    key.data = List.intercalate [':'] segs

/-- The store of a `LocalStash` (`src/local.rs:12`): the
`HashMap<String, String>` behind the mutex, modelled as an association
list. The map's states are those whose keys are pairwise distinct
(`KeysNodup`). -/
abbrev StoreMap := List (String × String)

/-- Rust's `HashMap::get` (plus `to_owned`), as used by `LocalStash::fetch`. -/
def mapGet : StoreMap → String → Option String
  | [], _ => none
  | p :: rest, k => if p.1 = k then some p.2 else mapGet rest k

/-- Rust's `HashMap::insert`, as used by `LocalStash::stash`: overwrites the
entry for the key if present and returns the previous value. -/
def mapInsert : StoreMap → String → String → Option String × StoreMap
  | [], k, v => (none, [(k, v)])
  | p :: rest, k, v =>
    if p.1 = k then (some p.2, (k, v) :: rest)
    else
      let r := mapInsert rest k v
      (r.1, p :: r.2)

/-- Rust's `HashMap::remove`, as used by `LocalStash::delete`: removes the entry
for the key if present and returns the removed value. -/
def mapRemove : StoreMap → String → Option String × StoreMap
  | [], _ => (none, [])
  | p :: rest, k =>
    if p.1 = k then (some p.2, rest)
    else
      let r := mapRemove rest k
      (r.1, p :: r.2)

/-- A `HashMap` state has pairwise-distinct keys; every state reachable
through the map's operations satisfies this. -/
def KeysNodup (s : StoreMap) : Prop :=
  (s.map Prod.fst).Nodup

/-- Rust's `LocalStash::fetch` (`src/local.rs:46-60`): lock, `get`, clone the
value; never errors and never mutates the map. -/
def LocalStash.fetch (s : StoreMap) (key : String) :
    Except StashError (Option String) × StoreMap :=
  (Except.ok (mapGet s key), s)

/-- Rust's `LocalStash::stash` (`src/local.rs:62-79`): `Self::validate_key(&key)?`
then lock and `insert`, returning the previous value. -/
def LocalStash.stash (s : StoreMap) (key value : String) :
    Except StashError (Option String) × StoreMap :=
  match Stash.validate_key key with
  | Except.error e => (Except.error e, s)
  | Except.ok () =>
    let r := mapInsert s key value
    (Except.ok r.1, r.2)

/-- Rust's `LocalStash::delete` (`src/local.rs:81-94`): lock and `remove`,
returning the removed value; no key validation. -/
def LocalStash.delete (s : StoreMap) (key : String) :
    Except StashError (Option String) × StoreMap :=
  let r := mapRemove s key
  (Except.ok r.1, r.2)

/-- Every key stored in the map passes the validator. `LocalStash` states
reachable from the empty map satisfy this, since `stash` validates before
inserting. -/
def ValidStore (s : StoreMap) : Prop :=
  ∀ p ∈ s, Stash.validate_key p.1 = Except.ok ()

/-- Rust's `RedisCredentials` struct (`src/redis.rs:18-21`). -/
structure RedisCredentials where
  username : String
  password : String

/-- The connection string built by `RedisStash::connect`
(`src/redis.rs:29-64`): the four-way `match (credentials, database_index)`
over the `format!` templates, verbatim. `u16`/`u32` display as their
decimal digits, modelled by `Nat` and `toString`. -/
def RedisStash.connect_url (host : String) (port : Nat)
    (credentials : Option RedisCredentials) (database_index : Option Nat) :
    String :=
  match credentials, database_index with
  | some c, some d =>
      "redis://" ++ c.username ++ ":" ++ c.password ++ "@" ++ host ++ ":"
        ++ toString port ++ "/" ++ toString d
  | some c, none =>
      "redis://" ++ c.username ++ ":" ++ c.password ++ "@" ++ host ++ ":"
        ++ toString port
  | none, some d =>
      "redis://" ++ host ++ ":" ++ toString port ++ "/" ++ toString d
  | none, none =>
      "redis://" ++ host ++ ":" ++ toString port ++ "/0"

/-- The optional `[username:password@]` part of the spec's
connection-string shape: present exactly when credentials are supplied. -/
def specCredsPart : Option RedisCredentials → String
  | some c => c.username ++ ":" ++ c.password ++ "@"
  | none => ""

/-- The optional `[/database_index]` part of the spec's connection-string
shape: present exactly when an index is supplied, defaulted to `/0` only
when neither credentials nor an index are supplied. -/
def specIndexPart : Option Nat → Option RedisCredentials → String
  | some d, _ => "/" ++ toString d
  | none, none => "/0"
  | none, some _ => ""

/-- The connection-string shape stated by the spec, written from its
words: `redis://[username:password@]host:port[/database_index]`. -/
def specConnUrl (host : String) (port : Nat)
    (credentials : Option RedisCredentials) (database_index : Option Nat) :
    String :=
  "redis://" ++ specCredsPart credentials ++ host ++ ":" ++ toString port
    ++ specIndexPart database_index credentials

/-- Modelled from the spec: the remote key-value service behind
`RedisStash` is not code of this repository (`src/redis.rs` only issues
commands over the client library), so its store is modelled as a map and
its "DEL-with-previous-value semantics" (spec §4.4) as removal returning
the removed value. -/
def redisDel (s : StoreMap) (key : String) : Option String × StoreMap :=
  mapRemove s key

/-- Rust's `RedisStash::delete` (`src/redis.rs:127-138`): issues the remote DEL
for the key and returns its result, wrapped in `Ok`. -/
def RedisStash.delete (s : StoreMap) (key : String) :
    Except StashError (Option String) × StoreMap :=
  let r := redisDel s key
  (Except.ok r.1, r.2)

/-! ### Facts about `List.splitOn` and `List.intercalate` -/

theorem splitOn_ne_nil (sep : Char) (xs : List Char) : xs.splitOn sep ≠ [] := by
  simp only [List.splitOn]
  exact List.splitOnP_ne_nil _ xs

theorem mem_of_mem_splitOn {sep c : Char} :
    ∀ {xs s : List Char}, s ∈ xs.splitOn sep → c ∈ s → c ∈ xs ∧ c ≠ sep := by
  intro xs
  induction xs with
  | nil =>
    intro s hs hc
    simp only [List.splitOn, List.splitOnP_nil, List.mem_singleton] at hs
    subst hs
    cases hc
  | cons x xs ih =>
    intro s hs hc
    rw [List.splitOn, List.splitOnP_cons] at hs
    by_cases hx : x = sep
    · rw [if_pos (by simp [hx])] at hs
      rcases List.mem_cons.mp hs with h | h
      · subst h; cases hc
      · have := ih (by rw [List.splitOn]; exact h) hc
        exact ⟨List.mem_cons_of_mem _ this.1, this.2⟩
    · rw [if_neg (by simp [hx])] at hs
      obtain ⟨t, ts, hts⟩ : ∃ t ts, xs.splitOnP (fun a => a == sep) = t :: ts := by
        cases h : xs.splitOnP (fun a => a == sep) with
        | nil => exact absurd h (List.splitOnP_ne_nil _ xs)
        | cons t ts => exact ⟨t, ts, rfl⟩
      rw [hts] at hs
      simp only [List.modifyHead] at hs
      rcases List.mem_cons.mp hs with h | h
      · subst h
        rcases List.mem_cons.mp hc with h | h
        · subst h; exact ⟨List.mem_cons_self _ _, hx⟩
        · have := ih
            (by rw [List.splitOn, hts]; exact List.mem_cons_self _ _) h
          exact ⟨List.mem_cons_of_mem _ this.1, this.2⟩
      · have := ih
          (by rw [List.splitOn, hts]; exact List.mem_cons_of_mem _ h) hc
        exact ⟨List.mem_cons_of_mem _ this.1, this.2⟩

theorem intercalate_singleton (sep : Char) (a : List Char) :
    List.intercalate [sep] [a] = a := by
  simp [List.intercalate]

theorem intercalate_cons_cons (sep : Char) (a b : List Char)
    (l : List (List Char)) :
    List.intercalate [sep] (a :: b :: l) =
      a ++ sep :: List.intercalate [sep] (b :: l) := by
  simp [List.intercalate, List.intersperse_cons_cons]

theorem intercalate_ne_nil (sep : Char) (a : List Char) (l : List (List Char))
    (ha : a ≠ []) : List.intercalate [sep] (a :: l) ≠ [] := by
  cases l with
  | nil => rw [intercalate_singleton]; exact ha
  | cons b l =>
    rw [intercalate_cons_cons]
    cases a with
    | nil => exact absurd rfl ha
    | cons c cs => simp

theorem head?_intercalate (sep : Char) (a : List Char) (l : List (List Char))
    (ha : a ≠ []) : (List.intercalate [sep] (a :: l)).head? = a.head? := by
  cases l with
  | nil => rw [intercalate_singleton]
  | cons b l =>
    rw [intercalate_cons_cons]
    cases a with
    | nil => exact absurd rfl ha
    | cons c cs => simp

theorem getLast?_intercalate (sep : Char) :
    ∀ segs : List (List Char), segs ≠ [] → (∀ s ∈ segs, s ≠ []) →
      ∃ s ∈ segs, (List.intercalate [sep] segs).getLast? = s.getLast? := by
  intro segs
  induction segs with
  | nil => intro h _; exact absurd rfl h
  | cons a l ih =>
    intro _ hne
    cases l with
    | nil =>
      exact ⟨a, List.mem_cons_self _ _, by rw [intercalate_singleton]⟩
    | cons b l' =>
      obtain ⟨s, hs, heq⟩ :=
        ih (by simp) (fun s hs => hne s (List.mem_cons_of_mem _ hs))
      refine ⟨s, List.mem_cons_of_mem _ hs, ?_⟩
      rw [intercalate_cons_cons, List.getLast?_append_cons]
      have hI : List.intercalate [sep] (b :: l') ≠ [] :=
        intercalate_ne_nil sep b l' (hne b (by simp))
      cases hI2 : List.intercalate [sep] (b :: l') with
      | nil => exact absurd hI2 hI
      | cons i is =>
        rw [hI2] at heq
        rw [List.getLast?_cons_cons]
        exact heq

theorem mem_intercalate (sep c : Char) :
    ∀ segs : List (List Char), c ∈ List.intercalate [sep] segs →
      c = sep ∨ ∃ s ∈ segs, c ∈ s := by
  intro segs
  induction segs with
  | nil => intro h; simp [List.intercalate] at h
  | cons a l ih =>
    intro h
    cases l with
    | nil =>
      rw [intercalate_singleton] at h
      exact Or.inr ⟨a, by simp, h⟩
    | cons b l' =>
      rw [intercalate_cons_cons] at h
      rcases List.mem_append.mp h with h | h
      · exact Or.inr ⟨a, by simp, h⟩
      · rcases List.mem_cons.mp h with h | h
        · exact Or.inl h
        · rcases ih h with h | ⟨s, hs, hcs⟩
          · exact Or.inl h
          · exact Or.inr ⟨s, List.mem_cons_of_mem _ hs, hcs⟩

/-! ### Characterizing the validator -/

theorem head_colon_empty_piece {cs : List Char} (h : cs.head? = some ':') :
    [] ∈ cs.splitOn ':' := by
  cases cs with
  | nil => cases h
  | cons x rest =>
    have hx : x = ':' := by simpa using h
    subst hx
    rw [List.splitOn, List.splitOnP_cons, if_pos (by simp)]
    exact List.mem_cons_self _ _

theorem getLast_colon_empty_piece {cs : List Char} (h : cs.getLast? = some ':') :
    [] ∈ cs.splitOn ':' := by
  by_contra hno
  have hnonempty : ∀ s ∈ cs.splitOn ':', s ≠ [] := by
    intro s hs hserr
    subst hserr
    exact hno hs
  obtain ⟨s, hs, heq⟩ :=
    getLast?_intercalate ':' (cs.splitOn ':') (splitOn_ne_nil ':' cs) hnonempty
  rw [List.intercalate_splitOn] at heq
  rw [h] at heq
  have hmem : ':' ∈ s := by
    obtain ⟨hne, hgl⟩ := List.mem_getLast?_eq_getLast (l := s) (x := ':')
      (Option.mem_def.mpr heq.symm)
    rw [hgl]
    exact List.getLast_mem hne
  exact (mem_of_mem_splitOn hs hmem).2 rfl

theorem no_empty_piece_head_getLast (cs : List Char)
    (h : ∀ s ∈ cs.splitOn ':', s ≠ []) :
    cs.head? ≠ some ':' ∧ cs.getLast? ≠ some ':' :=
  ⟨fun hh => h [] (head_colon_empty_piece hh) rfl,
   fun hh => h [] (getLast_colon_empty_piece hh) rfl⟩

theorem validate_key_ok_iff (key : String) :
    Stash.validate_key key = Except.ok () ↔ keyGrammar key := by
  constructor
  · intro h
    unfold Stash.validate_key at h
    split_ifs at h with h1 h2 h3 h4
    refine ⟨key.data.splitOn ':', splitOn_ne_nil ':' key.data, ?_, ?_⟩
    · intro s hs
      have hall : key.data.all keyCharOk = true := by
        by_contra hno
        exact h4 (by simp [hno])
      refine ⟨?_, ?_⟩
      · intro hnil
        exact h3 (List.any_eq_true.mpr ⟨s, hs, by simp [hnil]⟩)
      · intro c hc
        obtain ⟨hck, hcne⟩ := mem_of_mem_splitOn hs hc
        have hok := List.all_eq_true.mp hall c hck
        unfold keyCharOk at hok
        simp only [Bool.or_eq_true, beq_iff_eq] at hok
        rcases hok with (hcase | hcase) | hcase
        · exact Or.inl hcase
        · exact absurd hcase hcne
        · exact Or.inr hcase
    · exact (List.intercalate_splitOn key.data ':').symm
  · rintro ⟨segs, hne, hseg, heq⟩
    have hsep : ∀ s ∈ segs, ':' ∉ s := by
      intro s hs hc
      rcases (hseg s hs).2 ':' hc with hcase | hcase
      · exact absurd hcase (by decide)
      · exact absurd hcase (by decide)
    have hsplit : key.data.splitOn ':' = segs := by
      rw [heq]
      exact List.splitOn_intercalate segs ':' hsep hne
    have hnonempty : ∀ s ∈ segs, s ≠ [] := fun s hs => (hseg s hs).1
    obtain ⟨a, l, rfl⟩ : ∃ a l, segs = a :: l := by
      cases segs with
      | nil => exact absurd rfl hne
      | cons a l => exact ⟨a, l, rfl⟩
    have ha : a ≠ [] := hnonempty a (by simp)
    have hd : ¬ key.data = [] := by rw [heq]; exact intercalate_ne_nil ':' a l ha
    have hhead : ¬ (key.data.head? = some ':' ∨ key.data.getLast? = some ':') := by
      have h2 := no_empty_piece_head_getLast key.data
        (by rw [hsplit]; exact hnonempty)
      exact fun hor => hor.elim h2.1 h2.2
    have h3 : ¬ ((key.data.splitOn ':').any fun s => s.isEmpty) = true := by
      rw [hsplit]
      intro hany
      obtain ⟨s, hs, hE⟩ := List.any_eq_true.mp hany
      exact hnonempty s hs (by simpa using hE)
    have h4 : ¬ (!(key.data.all keyCharOk)) = true := by
      have hall : key.data.all keyCharOk = true := by
        rw [List.all_eq_true]
        intro c hc
        rw [heq] at hc
        rcases mem_intercalate ':' c (a :: l) hc with hcase | ⟨s, hs, hcs⟩
        · subst hcase; decide
        · rcases (hseg s hs).2 c hcs with hcase | hcase
          · simp [keyCharOk, hcase]
          · subst hcase; decide
      simp [hall]
    unfold Stash.validate_key
    rw [if_neg hd, if_neg hhead, if_neg h3, if_neg h4]

theorem validate_key_not_ok (key : String)
    (h : Stash.validate_key key ≠ Except.ok ()) :
    ∃ msg, Stash.validate_key key = Except.error (StashError.InvalidKey msg) := by
  unfold Stash.validate_key at h ⊢
  split_ifs at h ⊢
  · exact ⟨_, rfl⟩
  · exact ⟨_, rfl⟩
  · exact ⟨_, rfl⟩
  · exact ⟨_, rfl⟩
  · exact absurd rfl h

theorem validate_key_ok_iff_not_bad (key : String) :
    Stash.validate_key key = Except.ok () ↔
      ¬ (key = "" ∨ key.data.head? = some ':' ∨ key.data.getLast? = some ':'
          ∨ (∃ s ∈ key.data.splitOn ':', s = [])
          ∨ ∃ c ∈ key.data, ¬ (c.isAlphanum = true ∨ c = ':' ∨ c = '_')) := by
  unfold Stash.validate_key
  split_ifs with h1 h2 h3 h4
  · refine iff_of_false (by simp) (not_not_intro ?_)
    exact Or.inl (String.ext (by rw [h1]))
  · refine iff_of_false (by simp) (not_not_intro ?_)
    rcases h2 with h | h
    · exact Or.inr (Or.inl h)
    · exact Or.inr (Or.inr (Or.inl h))
  · refine iff_of_false (by simp) (not_not_intro ?_)
    obtain ⟨s, hs, hE⟩ := List.any_eq_true.mp h3
    exact Or.inr (Or.inr (Or.inr (Or.inl ⟨s, hs, by simpa using hE⟩)))
  · refine iff_of_false (by simp) (not_not_intro ?_)
    refine Or.inr (Or.inr (Or.inr (Or.inr ?_)))
    have h4' : ¬ (key.data.all keyCharOk = true) := by simpa using h4
    rw [List.all_eq_true] at h4'
    push_neg at h4'
    obtain ⟨c, hc, hnok⟩ := h4'
    refine ⟨c, hc, ?_⟩
    intro hor
    apply hnok
    unfold keyCharOk
    rcases hor with h | h | h
    · simp [h]
    · simp [h]
    · simp [h]
  · refine iff_of_true rfl ?_
    intro hbad
    rcases hbad with h | h | h | ⟨s, hs, hsnil⟩ | ⟨c, hc, hnor⟩
    · exact h1 (by rw [h])
    · exact h2 (Or.inl h)
    · exact h2 (Or.inr h)
    · exact h3 (List.any_eq_true.mpr ⟨s, hs, by simp [hsnil]⟩)
    · have hall : key.data.all keyCharOk = true := by simpa using h4
      have hok := List.all_eq_true.mp hall c hc
      unfold keyCharOk at hok
      simp only [Bool.or_eq_true, beq_iff_eq] at hok
      apply hnor
      rcases hok with (h | h) | h
      · exact Or.inl h
      · exact Or.inr (Or.inl h)
      · exact Or.inr (Or.inr h)

/-- C1: `validate_key` returns `Ok(())` exactly on the keys matched by the
spec grammar `key := segment (":" segment)*`, `segment := [A-Za-z0-9_]+`,
and returns an `InvalidKey` error exactly when the key is empty, starts
or ends with `:`, contains an empty `:`-delimited segment, or contains a
character outside `[A-Za-z0-9_:]`. -/
theorem C1_validate_key_grammar (key : String) :
    (Stash.validate_key key = Except.ok () ↔ keyGrammar key)
    ∧ ((∃ msg, Stash.validate_key key =
          Except.error (StashError.InvalidKey msg)) ↔
        (key = "" ∨ key.data.head? = some ':' ∨ key.data.getLast? = some ':'
          ∨ (∃ s ∈ key.data.splitOn ':', s = [])
          ∨ ∃ c ∈ key.data, ¬ (c.isAlphanum = true ∨ c = ':' ∨ c = '_'))) := by
  refine ⟨validate_key_ok_iff key, ?_, ?_⟩
  · rintro ⟨msg, hmsg⟩
    by_contra hbad
    rw [← validate_key_ok_iff_not_bad] at hbad
    rw [hbad] at hmsg
    exact Except.noConfusion hmsg
  · intro hbad
    refine validate_key_not_ok key fun hok => ?_
    exact (validate_key_ok_iff_not_bad key).mp hok hbad

/-! ### Facts about the association-list model of `HashMap` -/

instance (s : StoreMap) : Decidable (KeysNodup s) := by
  unfold KeysNodup
  infer_instance

instance (s : StoreMap) : Decidable (ValidStore s) := by
  unfold ValidStore
  infer_instance

theorem mapInsert_fst (s : StoreMap) (k v : String) :
    (mapInsert s k v).1 = mapGet s k := by
  induction s with
  | nil => rfl
  | cons p rest ih =>
    by_cases h : p.1 = k
    · simp [mapInsert, mapGet, h]
    · simp [mapInsert, mapGet, h, ih]

theorem mapGet_mapInsert_self (s : StoreMap) (k v : String) :
    mapGet (mapInsert s k v).2 k = some v := by
  induction s with
  | nil => simp [mapInsert, mapGet]
  | cons p rest ih =>
    by_cases h : p.1 = k
    · simp [mapInsert, mapGet, h]
    · simp [mapInsert, mapGet, h, ih]

theorem mapGet_mapInsert_ne (s : StoreMap) (k kp v : String) (h : kp ≠ k) :
    mapGet (mapInsert s k v).2 kp = mapGet s kp := by
  have h' : ¬ (k = kp) := fun hh => h hh.symm
  induction s with
  | nil => simp [mapInsert, mapGet, h']
  | cons p rest ih =>
    by_cases hp : p.1 = k
    · have hpk : ¬ (p.1 = kp) := by rw [hp]; exact h'
      simp [mapInsert, mapGet, hp, h', hpk]
    · simp [mapInsert, mapGet, hp, ih]

theorem mapInsert_length_of_mem (s : StoreMap) (k v w : String) :
    mapGet s k = some w → (mapInsert s k v).2.length = s.length := by
  induction s with
  | nil => intro h; cases h
  | cons p rest ih =>
    intro h
    by_cases hp : p.1 = k
    · simp [mapInsert, hp]
    · simp only [mapGet, if_neg hp] at h
      simp [mapInsert, hp, ih h]

theorem mapRemove_fst (s : StoreMap) (k : String) :
    (mapRemove s k).1 = mapGet s k := by
  induction s with
  | nil => rfl
  | cons p rest ih =>
    by_cases h : p.1 = k
    · simp [mapRemove, mapGet, h]
    · simp [mapRemove, mapGet, h, ih]

theorem mapRemove_of_none (s : StoreMap) (k : String) :
    mapGet s k = none → (mapRemove s k).2 = s := by
  induction s with
  | nil => intro _; rfl
  | cons p rest ih =>
    intro h
    by_cases hp : p.1 = k
    · simp [mapGet, hp] at h
    · simp only [mapGet, if_neg hp] at h
      simp [mapRemove, hp, ih h]

theorem mapGet_of_not_mem_keys (s : StoreMap) (k : String) :
    k ∉ s.map Prod.fst → mapGet s k = none := by
  induction s with
  | nil => intro _; rfl
  | cons p rest ih =>
    intro h
    simp only [List.map_cons, List.mem_cons] at h
    push_neg at h
    have hne : ¬ (p.1 = k) := fun hh => h.1 hh.symm
    simp only [mapGet, if_neg hne]
    exact ih h.2

theorem mapGet_mapRemove_self (s : StoreMap) (k : String) :
    KeysNodup s → mapGet (mapRemove s k).2 k = none := by
  induction s with
  | nil => intro _; rfl
  | cons p rest ih =>
    intro hw
    rw [KeysNodup, List.map_cons, List.nodup_cons] at hw
    by_cases hp : p.1 = k
    · simp only [mapRemove, if_pos hp]
      subst hp
      exact mapGet_of_not_mem_keys rest p.1 hw.1
    · simp only [mapRemove, if_neg hp]
      simp only [mapGet, if_neg hp]
      exact ih hw.2

theorem mapGet_mapRemove_ne (s : StoreMap) (k kp : String) (h : kp ≠ k) :
    mapGet (mapRemove s k).2 kp = mapGet s kp := by
  induction s with
  | nil => rfl
  | cons p rest ih =>
    by_cases hp : p.1 = k
    · have hkp : ¬ (k = kp) := fun hh => h hh.symm
      simp [mapRemove, mapGet, hp, hkp]
    · simp [mapRemove, mapGet, hp, ih]

theorem mapGet_mem (s : StoreMap) (k v : String) :
    mapGet s k = some v → (k, v) ∈ s := by
  induction s with
  | nil => intro h; cases h
  | cons p rest ih =>
    intro h
    simp only [mapGet] at h
    by_cases hp : p.1 = k
    · rw [if_pos hp] at h
      have hpkv : p = (k, v) := by
        obtain ⟨a, b⟩ := p
        obtain rfl : a = k := hp
        obtain rfl : b = v := by injection h
        rfl
      rw [← hpkv]
      exact List.mem_cons_self _ _
    · rw [if_neg hp] at h
      exact List.mem_cons_of_mem _ (ih h)

/-! ### The claims -/

/-- C2: on the in-memory backend, for every key accepted by the validator
and every value, `stash(k, v)` immediately followed by `fetch(k)` returns
`Ok(Some(v))`. -/
theorem C2_stash_then_fetch (s : StoreMap) (k v : String)
    (h : Stash.validate_key k = Except.ok ()) :
    (LocalStash.fetch (LocalStash.stash s k v).2 k).1 = Except.ok (some v) := by
  simp only [LocalStash.stash, h, LocalStash.fetch]
  rw [mapGet_mapInsert_self]

/-- Witness for C2, at the spec's scenario 1. -/
theorem C2_stash_then_fetch_witness :
    Stash.validate_key "user:1:name" = Except.ok ()
    ∧ (LocalStash.fetch (LocalStash.stash [] "user:1:name" "Alice").2
        "user:1:name").1 = Except.ok (some "Alice") :=
  ⟨by decide, C2_stash_then_fetch [] "user:1:name" "Alice" (by decide)⟩

/-- C3: on the in-memory backend, for every valid key `k`: a `stash` on a
key not in the store returns `Ok(None)`; `stash(k, v1)` then
`stash(k, v2)` has the second call return `Ok(Some(v1))` and a subsequent
`fetch(k)` return `Ok(Some(v2))`, with no duplication — the second stash
leaves the number of entries unchanged. -/
theorem C3_stash_overwrite (s : StoreMap) (k v v1 v2 : String)
    (hk : Stash.validate_key k = Except.ok ()) :
    (mapGet s k = none → (LocalStash.stash s k v).1 = Except.ok none)
    ∧ (LocalStash.stash (LocalStash.stash s k v1).2 k v2).1 =
        Except.ok (some v1)
    ∧ (LocalStash.fetch
        (LocalStash.stash (LocalStash.stash s k v1).2 k v2).2 k).1 =
        Except.ok (some v2)
    ∧ (LocalStash.stash (LocalStash.stash s k v1).2 k v2).2.length =
        (LocalStash.stash s k v1).2.length := by
  refine ⟨?_, ?_, ?_, ?_⟩
  · intro hnone
    simp only [LocalStash.stash, hk]
    rw [mapInsert_fst, hnone]
  · simp only [LocalStash.stash, hk]
    rw [mapInsert_fst, mapGet_mapInsert_self]
  · simp only [LocalStash.stash, LocalStash.fetch, hk]
    rw [mapGet_mapInsert_self]
  · simp only [LocalStash.stash, hk]
    exact mapInsert_length_of_mem _ k v2 v1 (mapGet_mapInsert_self s k v1)

/-- Witness for C3, at the spec's scenario 2. -/
theorem C3_stash_overwrite_witness :
    (LocalStash.stash [] "test" "value123").1 = Except.ok none
    ∧ (LocalStash.stash (LocalStash.stash [] "test" "value123").2 "test"
        "value1234").1 = Except.ok (some "value123")
    ∧ (LocalStash.fetch (LocalStash.stash
        (LocalStash.stash [] "test" "value123").2 "test" "value1234").2
        "test").1 = Except.ok (some "value1234")
    ∧ (LocalStash.stash (LocalStash.stash [] "test" "value123").2 "test"
        "value1234").2.length =
        (LocalStash.stash [] "test" "value123").2.length := by
  obtain ⟨h1, h2, h3, h4⟩ :=
    C3_stash_overwrite [] "test" "value123" "value123" "value1234" (by decide)
  exact ⟨h1 (by decide), h2, h3, h4⟩

/-- C4: stashing under a key that violates the grammar fails with an
`InvalidKey` error and leaves the store unchanged: same number of
entries, and every key still fetches the same result. -/
theorem C4_invalid_stash (s : StoreMap) (k v : String)
    (h : ¬ keyGrammar k) :
    (∃ msg, (LocalStash.stash s k v).1 =
        Except.error (StashError.InvalidKey msg))
    ∧ (LocalStash.stash s k v).2.length = s.length
    ∧ ∀ kp, (LocalStash.fetch (LocalStash.stash s k v).2 kp).1 =
        (LocalStash.fetch s kp).1 := by
  have hnot : Stash.validate_key k ≠ Except.ok () := fun hok =>
    h ((validate_key_ok_iff k).mp hok)
  obtain ⟨msg, hmsg⟩ := validate_key_not_ok k hnot
  refine ⟨⟨msg, ?_⟩, ?_, fun kp => ?_⟩
  · simp [LocalStash.stash, hmsg]
  · simp [LocalStash.stash, hmsg]
  · simp [LocalStash.stash, hmsg]

/-- Witness for C4, at the spec's scenario 5 (`"a::b"`, empty segment). -/
theorem C4_invalid_stash_witness :
    (∃ msg, (LocalStash.stash [("user:1:name", "Alice")] "a::b" "v").1 =
        Except.error (StashError.InvalidKey msg))
    ∧ (LocalStash.stash [("user:1:name", "Alice")] "a::b" "v").2.length =
        ([("user:1:name", "Alice")] : StoreMap).length
    ∧ (LocalStash.fetch
        (LocalStash.stash [("user:1:name", "Alice")] "a::b" "v").2
        "user:1:name").1 =
        (LocalStash.fetch [("user:1:name", "Alice")] "user:1:name").1 := by
  obtain ⟨h1, h2, h3⟩ := C4_invalid_stash [("user:1:name", "Alice")] "a::b" "v"
    (fun hg => absurd ((validate_key_ok_iff "a::b").mpr hg) (by decide))
  exact ⟨h1, h2, h3 "user:1:name"⟩

/-- C5: on the in-memory backend, for every key (validated or not):
`delete` of an absent key returns `Ok(None)` and changes nothing;
`delete` of a present key returns `Ok(Some(stored value))` and removes
the entry, so a subsequent `fetch` returns `Ok(None)`. -/
theorem C5_delete (s : StoreMap) (k : String) (hw : KeysNodup s) :
    (mapGet s k = none →
      (LocalStash.delete s k).1 = Except.ok none
        ∧ (LocalStash.delete s k).2 = s)
    ∧ ∀ v, mapGet s k = some v →
        (LocalStash.delete s k).1 = Except.ok (some v)
          ∧ (LocalStash.fetch (LocalStash.delete s k).2 k).1 =
              Except.ok none := by
  constructor
  · intro hnone
    constructor
    · simp only [LocalStash.delete]
      rw [mapRemove_fst, hnone]
    · simp only [LocalStash.delete]
      exact mapRemove_of_none s k hnone
  · intro v hv
    constructor
    · simp only [LocalStash.delete]
      rw [mapRemove_fst, hv]
    · simp only [LocalStash.delete, LocalStash.fetch]
      rw [mapGet_mapRemove_self s k hw]

/-- Witness for C5: delete of a present key returns it and removes it. -/
theorem C5_delete_witness :
    (LocalStash.delete [("key1", "1")] "key1").1 = Except.ok (some "1")
    ∧ (LocalStash.fetch (LocalStash.delete [("key1", "1")] "key1").2
        "key1").1 = Except.ok none :=
  (C5_delete [("key1", "1")] "key1" (by decide)).2 "1" (by decide)

/-- C6: the networked backend's `delete` has remote
DEL-with-previous-value semantics: it returns the removed value when an
entry existed (and the entry is gone), and `None` when none existed. -/
theorem C6_redis_delete (s : StoreMap) (k : String) (hw : KeysNodup s) :
    (mapGet s k = none → (RedisStash.delete s k).1 = Except.ok none)
    ∧ ∀ v, mapGet s k = some v →
        (RedisStash.delete s k).1 = Except.ok (some v)
          ∧ mapGet (RedisStash.delete s k).2 k = none := by
  constructor
  · intro hnone
    simp only [RedisStash.delete, redisDel]
    rw [mapRemove_fst, hnone]
  · intro v hv
    constructor
    · simp only [RedisStash.delete, redisDel]
      rw [mapRemove_fst, hv]
    · simp only [RedisStash.delete, redisDel]
      exact mapGet_mapRemove_self s k hw

/-- Witness for C6. -/
theorem C6_redis_delete_witness :
    (RedisStash.delete [("session:f05a29", "tok")] "session:f05a29").1 =
        Except.ok (some "tok")
    ∧ mapGet (RedisStash.delete [("session:f05a29", "tok")]
        "session:f05a29").2 "session:f05a29" = none :=
  (C6_redis_delete [("session:f05a29", "tok")] "session:f05a29"
    (by decide)).2 "tok" (by decide)

/-- C7: the connection string built by `RedisStash::connect` is exactly
the spec's `redis://[username:password@]host:port[/database_index]`
shape: the credentials part appears exactly when credentials are
supplied, the `/database_index` suffix exactly when an index is
supplied, and the default `/0` suffix appears only when neither is. -/
theorem C7_connect_url (host : String) (port : Nat)
    (credentials : Option RedisCredentials) (database_index : Option Nat) :
    RedisStash.connect_url host port credentials database_index =
      specConnUrl host port credentials database_index := by
  cases credentials <;> cases database_index <;>
    simp [RedisStash.connect_url, specConnUrl, specCredsPart, specIndexPart,
      String.append_assoc, String.append_empty, String.empty_append]

/-- C8: `fetch` performs no key validation: it always returns `Ok` of the
lookup, and on a store whose keys all validated (every reachable store),
a key that violates the grammar always fetches `Ok(None)`. -/
theorem C8_fetch_no_validation (s : StoreMap) (k : String) :
    (LocalStash.fetch s k).1 = Except.ok (mapGet s k)
    ∧ (ValidStore s → ¬ keyGrammar k →
        (LocalStash.fetch s k).1 = Except.ok none) := by
  refine ⟨rfl, fun hvs hng => ?_⟩
  have hnone : mapGet s k = none := by
    cases hv : mapGet s k with
    | none => rfl
    | some v =>
      exfalso
      have hmem := mapGet_mem s k v hv
      have hok := hvs (k, v) hmem
      exact hng ((validate_key_ok_iff k).mp hok)
  simp [LocalStash.fetch, hnone]

/-- Witness for C8, with the malformed key `"::"` on the empty store. -/
theorem C8_fetch_no_validation_witness :
    (LocalStash.fetch [] "::").1 = Except.ok (mapGet [] "::")
    ∧ (LocalStash.fetch [] "::").1 = Except.ok none := by
  obtain ⟨h1, h2⟩ := C8_fetch_no_validation [] "::"
  exact ⟨h1, h2 (by decide)
    (fun hg => absurd ((validate_key_ok_iff "::").mpr hg) (by decide))⟩

/-- C9: the in-memory backend never returns a `BackendError`: `fetch` and
`delete` always return `Ok`, and `stash` either returns `Ok` or an
`InvalidKey` error. -/
theorem C9_no_backend_error (s : StoreMap) (k v : String) :
    (∃ r, (LocalStash.fetch s k).1 = Except.ok r)
    ∧ (∃ r, (LocalStash.delete s k).1 = Except.ok r)
    ∧ ((∃ r, (LocalStash.stash s k v).1 = Except.ok r)
        ∨ ∃ msg, (LocalStash.stash s k v).1 =
            Except.error (StashError.InvalidKey msg)) := by
  refine ⟨⟨mapGet s k, rfl⟩, ⟨(mapRemove s k).1, rfl⟩, ?_⟩
  by_cases h : Stash.validate_key k = Except.ok ()
  · exact Or.inl ⟨(mapInsert s k v).1, by simp [LocalStash.stash, h]⟩
  · obtain ⟨msg, hmsg⟩ := validate_key_not_ok k h
    exact Or.inr ⟨msg, by simp [LocalStash.stash, hmsg]⟩

/-- C10: frame property of the in-memory backend: `fetch` leaves the
store unchanged, and `stash`/`delete` of key `k` leave the entry of
every other key `kp` untouched. -/
theorem C10_frame (s : StoreMap) (k kp v : String) (h : kp ≠ k) :
    (LocalStash.fetch s k).2 = s
    ∧ mapGet (LocalStash.stash s k v).2 kp = mapGet s kp
    ∧ mapGet (LocalStash.delete s k).2 kp = mapGet s kp := by
  refine ⟨rfl, ?_, ?_⟩
  · cases hv : Stash.validate_key k with
    | error e => simp [LocalStash.stash, hv]
    | ok u =>
      cases u
      simp only [LocalStash.stash, hv]
      exact mapGet_mapInsert_ne s k kp v h
  · simp only [LocalStash.delete]
    exact mapGet_mapRemove_ne s k kp h

/-- Witness for C10. -/
theorem C10_frame_witness :
    (LocalStash.fetch [("a", "1")] "b").2 = ([("a", "1")] : StoreMap)
    ∧ mapGet (LocalStash.stash [("a", "1")] "b" "2").2 "a" =
        mapGet [("a", "1")] "a"
    ∧ mapGet (LocalStash.delete [("a", "1")] "b").2 "a" =
        mapGet [("a", "1")] "a" :=
  C10_frame [("a", "1")] "b" "a" "2" (by decide)
